import Mathlib

/-!
Verification of the LexerGenerator repository: a table-driven lexical
analyzer generator.  The development embeds, at the observable level:

* the scanner loop of `lexer-bootstrap/src/lexer.rs` (`Lexer::lex`) and
  `simple-lexer-bootstrap/src/lexer.rs`, which drives a compiled DFA over a
  character stream and emits tokens (namespace `Boot`);
* the lexer lifecycle `Lexer::new` / `Lexer::compile` / `Lexer::lex` of
  `lexer-bootstrap/src/lexer.rs` together with the tagged-state generator of
  `src/lib.rs` (`TokenState`, `TokenStateGenerator`);
* the regex-AST to epsilon-NFA compiler `ENFA::_from_re` of `src/nfa.rs`
  (namespace `Root`).

Characters are modelled as code points (`Nat`); Rust `String`s are lists of
code points.  The companion crates `finite_automata` (the subset construction
`Dfa::from` and the transition lookup) and `re_bootstrap` (the tagged
fragment builder `Re::as_enfa`) are part of this repository's pipeline but
their sources are not available here; those two pieces are modelled from the
specification (sections 4.3-4.5) and are marked `Modelled from the spec:` in
their doc comments.  Everything else is translated from the Rust sources.
-/

namespace LexerGen

namespace Boot

/-- A token state, from `src/lib.rs` (`TokenState`): a fragment-unique
identifier (the source uses a random UUID; we use a number that the compiler
assigns uniquely per production), a monotone sequence number, and the token
tag (`None` on hidden states). -/
structure TokenState (T : Type) where
  uuid : Nat
  seq : Nat
  token : Option T
deriving DecidableEq, Repr

/-- A token, from `lexer-bootstrap/src/lexer.rs` (`Token`): a kind and the
matched lexeme (a string, modelled as a list of code points). -/
structure Token (T : Type) where
  kind : T
  text : List Nat
deriving DecidableEq, Repr

/-- The observable outcome of `Lexer::lex`.  `ok` and `partialMatch` and
`notCompiled` are the `Ok`/`Err(PartialMatch)`/`Err(NotCompiled)` results of
`lexer-bootstrap/src/lexer.rs`; `inconsistent` models the
`panic!("inconsistent tokens in final state")` (an `Err` in
`simple-lexer-bootstrap`); `outOfFuel` is produced only when the modelled
loop exceeds its explicit fuel, so `lex` returning `r ≠ outOfFuel` for some
fuel means the source loop terminates with `r`, and `outOfFuel` for every
fuel means the source loop never exits. -/
inductive LexOutcome (T : Type) where
  | ok (tokens : List (Token T))
  | partialMatch
  | inconsistent
  | notCompiled
  | outOfFuel
deriving DecidableEq, Repr

/-- A compiled DFA at the observable level of `finite_automata::Dfa` as used
by the scanner: states are indices; `states` gives each index its member
`TokenState` set (`Dfa::states_index`), `transitions` are interval-labelled
index transitions, `finals` the accepting indices (`Dfa::is_final`). -/
structure DfaData (T : Type) where
  initialIndex : Nat
  states : List (List (TokenState T))
  transitions : List (Nat × (Nat × Nat) × Nat)
  finals : List Nat
deriving DecidableEq, Repr

/-- Modelled from the spec: the transition lookup
`Dfa::transitions_contains_outgoing((source, &character.into()))` of the
`finite_automata` crate, per section 4.6: take the outgoing transition of
`src` whose interval contains the code point `c` (by P1 at most one interval
matches, so first-match is the match). -/
def DfaData.step (d : DfaData T) (src : Nat) (c : Nat) : Option Nat :=
  match d.transitions.find? (fun tr => tr.1 = src ∧ tr.2.1.1 ≤ c ∧ c ≤ tr.2.1.2) with
  | some tr => some tr.2.2
  | none => none

/-- `Dfa::is_final` at index `s`. -/
def DfaData.isFinalB (d : DfaData T) (s : Nat) : Bool :=
  d.finals.contains s

/-- The token kinds of the member `TokenState`s of DFA state `s`
(`dfa.states_index(source_index)` iterated by the tag-resolution loop). -/
def DfaData.memberKinds (d : DfaData T) (s : Nat) : List (Option T) :=
  (d.states.getD s []).map (·.token)

instance {ε α : Type} [DecidableEq ε] [DecidableEq α] : DecidableEq (Except ε α) := fun a b =>
  match a, b with
  | .error e, .error e' => decidable_of_iff (e = e') (by simp)
  | .ok x, .ok x' => decidable_of_iff (x = x') (by simp)
  | .error _, .ok _ => isFalse (by simp)
  | .ok _, .error _ => isFalse (by simp)

/-- The tag-resolution loop of `Lexer::lex`
(`lexer-bootstrap/src/lexer.rs:86-95`): starting from `token_kind = None`,
take each member state's kind the first time a kind is seen, and panic when a
later member carries a different non-absent kind.  `Except.error` models the
panic. -/
def resolveKind [DecidableEq T] : List (Option T) → Option T → Except Unit (Option T)
  | [], acc => .ok acc
  | k :: ks, acc =>
    if acc = none then resolveKind ks k
    else if k ≠ none ∧ k ≠ acc then .error () else resolveKind ks acc

/-- The scanner loop of `Lexer::lex` (`lexer-bootstrap/src/lexer.rs:75-120`),
with the loop expressed by explicit fuel (the Rust `while let` has no
syntactic bound; one fuel unit is one loop iteration, and the trailing
end-of-input block runs under the last unit).  State: remaining characters
`cs` (the `VecDeque`), current DFA index `src`, current lexeme `text`
(`token_text`), and emitted tokens `toks`.  On a dead next character the
scanner emits from the current state when it is accepting — pushing the dead
character back and resetting to the initial index — and otherwise fails with
a partial match. -/
def lexGo [DecidableEq T] (d : DfaData T) :
    List Nat → Nat → List Nat → List (Token T) → Nat → LexOutcome T
  | _, _, _, _, 0 => .outOfFuel
  | [], src, text, toks, _ + 1 =>
    if d.isFinalB src then
      match resolveKind (d.memberKinds src) none with
      | .error _ => .inconsistent
      | .ok none => .ok toks
      | .ok (some k) => .ok (toks ++ [⟨k, text⟩])
    else .partialMatch
  | c :: cs, src, text, toks, fuel + 1 =>
    match d.step src c with
    | some tgt => lexGo d cs tgt (text ++ [c]) toks fuel
    | none =>
      if d.isFinalB src then
        match resolveKind (d.memberKinds src) none with
        | .error _ => .inconsistent
        | .ok none => lexGo d (c :: cs) d.initialIndex [] toks fuel
        | .ok (some k) => lexGo d (c :: cs) d.initialIndex [] (toks ++ [⟨k, text⟩]) fuel
      else .partialMatch

/-- Run `Lexer::lex` on a compiled DFA from the start of the input. -/
def lexEval [DecidableEq T] (d : DfaData T) (input : List Nat) (fuel : Nat) : LexOutcome T :=
  lexGo d input d.initialIndex [] [] fuel

/-- The pure DFA run: the state reached from `s` after consuming `cs`, if
every step has a matching transition. -/
def dfaRun (d : DfaData T) : Nat → List Nat → Option Nat
  | s, [] => some s
  | s, c :: cs =>
    match d.step s c with
    | some t => dfaRun d t cs
    | none => none

/-- `w` is accepted: the DFA run from the initial index over `w` reaches an
accepting state. -/
def acceptsB (d : DfaData T) (w : List Nat) : Bool :=
  match dfaRun d d.initialIndex w with
  | some s => d.isFinalB s
  | none => false

/-- `w` is the longest prefix of `remaining` that reaches an accepting DFA
state (spec P4). -/
def LongestAcceptedPrefix (d : DfaData T) (w remaining : List Nat) : Prop :=
  w <+: remaining ∧ acceptsB d w = true ∧
    ∀ v, v <+: remaining → w.length < v.length → acceptsB d v = false

/-- The input consumed by a list of scan pieces (each piece a lexeme paired
with its winning tag, `none` for a skipped lexeme). -/
def piecesText (pieces : List (Option T × List Nat)) : List Nat :=
  (pieces.map (·.2)).flatten

/-- The tokens emitted by a list of scan pieces: one token per piece whose
winning tag is present. -/
def piecesTokens (pieces : List (Option T × List Nat)) : List (Token T) :=
  pieces.filterMap (fun p => p.1.map (fun k => ⟨k, p.2⟩))

/-- Every piece is the longest accepted prefix of the input remaining where
its scan began. -/
def PiecesLongest (d : DfaData T) : List (Option T × List Nat) → Prop
  | [] => True
  | (_, w) :: rest => LongestAcceptedPrefix d w (w ++ piecesText rest) ∧ PiecesLongest d rest

/-- Modelled from the spec: the regex AST of the `re_bootstrap` crate
(section 3 data model; builder macros `sym!`, `con!`, `alt!`, `ast!` seen in
the tests).  A symbol carries a character class given as code-point
intervals.  Only the unbounded repetition is included: every production
appearing in the claims uses it, bounded `{n,m}` repetition unrolls to the
other constructors (sections 4.3 and 9), and `Negation` is sugar for
`Symbol` over the complemented class (section 4.1). -/
inductive Re where
  | epsilon
  | symbol (cls : List (Nat × Nat))
  | alternation (res : List Re)
  | concatenation (res : List Re)
  | repetition (re : Re)
deriving Repr

mutual

/-- Structural equality of regexes, the key comparison of the
`BTreeMap<Re, Option<T>>` production catalogue. -/
def Re.beq : Re → Re → Bool
  | .epsilon, .epsilon => true
  | .symbol a, .symbol b => a = b
  | .alternation xs, .alternation ys => Re.beqList xs ys
  | .concatenation xs, .concatenation ys => Re.beqList xs ys
  | .repetition a, .repetition b => Re.beq a b
  | _, _ => false

/-- Elementwise regex equality on lists. -/
def Re.beqList : List Re → List Re → Bool
  | [], [] => true
  | x :: xs, y :: ys => Re.beq x y && Re.beqList xs ys
  | _, _ => false

end

/-- The `BTreeMap::insert` of the production catalogue: inserting a binding
whose key is already present replaces the stored value (the declaration-order
position is kept here; the real map iterates in key order, which the scanner
cannot observe because fragments are grafted disjointly and tag resolution is
order-independent). -/
def mapInsert (m : List (Re × Option Nat)) (k : Re) (v : Option Nat) :
    List (Re × Option Nat) :=
  match m with
  | [] => [(k, v)]
  | (k', v') :: rest =>
    if Re.beq k k' then (k', v) :: rest else (k', v') :: mapInsert rest k v

/-- The `map![k1 => v1, ...]` macro of `util.rs`: build the catalogue by
repeated `BTreeMap::insert`, so a duplicated regex keeps only its last
binding. -/
def mapFromList (l : List (Re × Option Nat)) : List (Re × Option Nat) :=
  l.foldl (fun m kv => mapInsert m kv.1 kv.2) []

/-- The tagged state generator of `src/lib.rs` (`TokenStateGenerator`): mints
`TokenState`s sharing one fragment-unique identifier with monotone sequence
numbers; `next_initial`/`next_ephemeral` are always hidden (tag forced
absent) and `next_final` is visible only while finals are enabled. -/
structure TsGen (T : Type) where
  uuid : Nat
  seq : Nat
  token : Option T
  finalEnabled : Bool

/-- `TokenStateGenerator::new`: fresh generator for one production, finals
enabled. -/
def TsGen.new (uuid : Nat) (token : Option T) : TsGen T :=
  ⟨uuid, 0, token, true⟩

/-- `next_initial` / `next_ephemeral` / `next_final_disabled`: mint a hidden
state (tag forced absent) and increment the sequence number. -/
def TsGen.nextHidden (g : TsGen T) : TokenState T × TsGen T :=
  (⟨g.uuid, g.seq, none⟩, { g with seq := g.seq + 1 })

/-- `next_final`: mint an accepting-boundary state; its tag is the
production's tag exactly when finals are enabled. -/
def TsGen.nextFinal (g : TsGen T) : TokenState T × TsGen T :=
  (⟨g.uuid, g.seq, if g.finalEnabled then g.token else none⟩, { g with seq := g.seq + 1 })

/-- A tagged ε-NFA fragment at the observable level of
`finite_automata::Enfa<TokenState<T>, u32>`: one initial state, the state
set, labelled transitions (`none` is the ε marker, which the source encodes
as `Interval::empty()`), and the accepting states. -/
structure TEnfa (T : Type) where
  initial : TokenState T
  states : List (TokenState T)
  transitions : List (TokenState T × Option (Nat × Nat) × TokenState T)
  finals : List (TokenState T)

/-- The ε-edges of a concatenation chain (spec section 4.3): `prevs` are the
accepting states of the previous sub-fragment (initially the fragment's own
initial state); each links to the next sub-fragment's initial, and the last
link to `f`. -/
def catEdges (f : TokenState T) :
    List (TokenState T) → List (TEnfa T) → List (TokenState T × Option (Nat × Nat) × TokenState T)
  | prevs, [] => prevs.map (fun p => (p, none, f))
  | prevs, s :: rest => prevs.map (fun p => (p, none, s.initial)) ++ catEdges f s.finals rest

mutual

/-- Modelled from the spec: `Re::as_enfa` of the `re_bootstrap` crate — the
Thompson-style fragment builder of section 4.3, threading the tagged state
generator of `src/lib.rs`.  Each constructor mints a hidden initial `i` and
an accepting boundary `f`; sub-fragments are built with finals disabled (so
inner accepting states are hidden) and the incoming enabledness is restored
before minting `f`, so the outermost `f` carries the production's tag.
Repetition is the unbounded form: `i --ε-> initial(sub)`, loopback
`final(sub) --ε-> initial(sub)`, `final(sub) --ε-> f` and `i --ε-> f`. -/
def asEnfa : Re → TsGen T → TEnfa T × TsGen T
  | .epsilon, g =>
    let (i, g) := g.nextHidden
    let (f, g) := g.nextFinal
    (⟨i, [i, f], [(i, none, f)], [f]⟩, g)
  | .symbol cls, g =>
    let (i, g) := g.nextHidden
    let (f, g) := g.nextFinal
    (⟨i, [i, f], cls.map (fun iv => (i, some iv, f)), [f]⟩, g)
  | .alternation res, g =>
    let (i, g) := g.nextHidden
    let saved := g.finalEnabled
    let (subs, g) := asEnfaList res { g with finalEnabled := false }
    let (f, g) := TsGen.nextFinal { g with finalEnabled := saved }
    (⟨i, i :: (subs.map (·.states)).flatten ++ [f],
       (subs.map (·.transitions)).flatten
         ++ subs.map (fun s => (i, none, s.initial))
         ++ (subs.map (fun s => s.finals.map (fun sf => (sf, none, f)))).flatten,
       [f]⟩, g)
  | .concatenation res, g =>
    let (i, g) := g.nextHidden
    let saved := g.finalEnabled
    let (subs, g) := asEnfaList res { g with finalEnabled := false }
    let (f, g) := TsGen.nextFinal { g with finalEnabled := saved }
    (⟨i, i :: (subs.map (·.states)).flatten ++ [f],
       (subs.map (·.transitions)).flatten ++ catEdges f [i] subs,
       [f]⟩, g)
  | .repetition r, g =>
    let (i, g) := g.nextHidden
    let saved := g.finalEnabled
    let (sub, g) := asEnfa r { g with finalEnabled := false }
    let (f, g) := TsGen.nextFinal { g with finalEnabled := saved }
    (⟨i, i :: sub.states ++ [f],
       sub.transitions ++ [(i, none, sub.initial)]
         ++ (sub.finals.map (fun sf => [(sf, none, sub.initial), (sf, none, f)])).flatten
         ++ [(i, none, f)],
       [f]⟩, g)

/-- Build the sub-fragments of a compound regex left to right, threading the
generator. -/
def asEnfaList : List Re → TsGen T → List (TEnfa T) × TsGen T
  | [], g => ([], g)
  | r :: rs, g =>
    let (e, g) := asEnfa r g
    let (es, g) := asEnfaList rs g
    (e :: es, g)

end

/-- The union ε-NFA of `Lexer::compile` (`lexer-bootstrap/src/lexer.rs:55-68`):
a fresh initial `TokenState::new(None)` (identifier 0 here; production `j`
compiles under identifier `j + 1`, modelling the per-generator UUIDs, which
are distinct), every fragment subsumed, an ε-edge from the union initial to
each fragment's initial, and each fragment's accepting states marked
accepting. -/
def buildUnion (prods : List (Re × Option Nat)) : TEnfa Nat :=
  let init : TokenState Nat := ⟨0, 0, none⟩
  let frags := prods.enum.map (fun p => (asEnfa p.2.1 (TsGen.new (p.1 + 1) p.2.2)).1)
  { initial := init,
    states := init :: (frags.map (·.states)).flatten,
    transitions := (frags.map (·.transitions)).flatten
      ++ frags.map (fun fr => (init, none, fr.initial)),
    finals := (frags.map (·.finals)).flatten }

/-- The comparison key of a `TokenState<Nat>`; injective, used to keep DFA
state sets (the `BTreeSet<TokenState<T>>`) in a canonical sorted order. -/
def tsLt (a b : TokenState Nat) : Bool :=
  let code : Option Nat → Nat := fun o => match o with | none => 0 | some k => k + 1
  decide (a.uuid < b.uuid ∨ (a.uuid = b.uuid ∧
    (a.seq < b.seq ∨ (a.seq = b.seq ∧ code a.token < code b.token))))

/-- Insert into a sorted duplicate-free list of token states. -/
def tsInsert (x : TokenState Nat) : List (TokenState Nat) → List (TokenState Nat)
  | [] => [x]
  | y :: ys => if x = y then y :: ys else if tsLt x y then x :: y :: ys else y :: tsInsert x ys

/-- Canonical (sorted, duplicate-free) form of a set of token states. -/
def tsSetOf (l : List (TokenState Nat)) : List (TokenState Nat) :=
  l.foldr tsInsert []

/-- One expansion step towards the ε-closure: add every ε-successor of a
member. -/
def ecloseStep (e : TEnfa Nat) (S : List (TokenState Nat)) : List (TokenState Nat) :=
  tsSetOf (S ++ e.transitions.filterMap
    (fun tr => if tr.2.1 = none ∧ tr.1 ∈ S then some tr.2.2 else none))

/-- Iterate the expansion step. -/
def ecloseIter (e : TEnfa Nat) : Nat → List (TokenState Nat) → List (TokenState Nat)
  | 0, S => S
  | n + 1, S => ecloseIter e n (ecloseStep e S)

/-- Modelled from the spec: `ε-close(S)`, the least superset of `S` closed
under ε-transitions (section 4.5); expanding once per ε-NFA state reaches the
fixed point. -/
def eclose (e : TEnfa Nat) (S : List (TokenState Nat)) : List (TokenState Nat) :=
  ecloseIter e (e.states.length + 1) (tsSetOf S)

/-- The non-ε transitions leaving a member of `D`. -/
def outgoing (e : TEnfa Nat) (D : List (TokenState Nat)) :
    List (TokenState Nat × (Nat × Nat) × TokenState Nat) :=
  e.transitions.filterMap (fun tr =>
    match tr.2.1 with
    | some iv => if tr.1 ∈ D then some (tr.1, iv, tr.2.2) else none
    | none => none)

/-- Insert into a sorted duplicate-free list of code points. -/
def natInsert (x : Nat) : List Nat → List Nat
  | [] => [x]
  | y :: ys => if x = y then y :: ys else if x < y then x :: y :: ys else y :: natInsert x ys

/-- The cells between adjacent boundary points: `[b, b' - 1]` for each
adjacent pair `b < b'`. -/
def adjacentCells : List Nat → List (Nat × Nat)
  | a :: b :: rest => (a, b - 1) :: adjacentCells (b :: rest)
  | _ => []

/-- Modelled from the spec: disjoint interval refinement (sections 4.5 and
9): split the labels into a partition of cells along all interval boundaries,
keeping the cells covered by at least one label.  Every label is a disjoint
union of cells and no two cells overlap. -/
def refine (ivs : List (Nat × Nat)) : List (Nat × Nat) :=
  let bs : List Nat :=
    List.foldr natInsert [] (ivs.map (fun iv => iv.1) ++ ivs.map (fun iv => iv.2 + 1))
  (adjacentCells bs).filter (fun c => ivs.any (fun iv => iv.1 ≤ c.1 ∧ c.2 ≤ iv.2))

/-- The target DFA state for a partition cell: the ε-closure of the targets
of every transition leaving `D` on an interval containing the cell. -/
def cellTarget (e : TEnfa Nat) (D : List (TokenState Nat)) (cell : Nat × Nat) :
    List (TokenState Nat) :=
  eclose e ((outgoing e D).filterMap
    (fun tr => if tr.2.1.1 ≤ cell.1 ∧ cell.2 ≤ tr.2.1.2 then some tr.2.2 else none))

/-- The worklist loop of the subset construction: process one pending DFA
state per fuel unit, adding its cell transitions and pushing unseen targets.
Accumulates the discovered states (in discovery order) and the set-level
transitions. -/
def buildGo (e : TEnfa Nat) :
    Nat → List (List (TokenState Nat)) → List (List (TokenState Nat)) →
    List (List (TokenState Nat) × (Nat × Nat) × List (TokenState Nat)) →
    List (List (TokenState Nat)) ×
      List (List (TokenState Nat) × (Nat × Nat) × List (TokenState Nat))
  | 0, _, seen, trs => (seen, trs)
  | _ + 1, [], seen, trs => (seen, trs)
  | fuel + 1, D :: rest, seen, trs =>
    let cells := refine ((outgoing e D).map (·.2.1))
    let next := cells.foldl
      (fun acc cell =>
        let tgt := cellTarget e D cell
        if tgt ∈ acc.2.1 then (acc.1, acc.2.1, acc.2.2 ++ [(D, cell, tgt)])
        else (acc.1 ++ [tgt], acc.2.1 ++ [tgt], acc.2.2 ++ [(D, cell, tgt)]))
      (rest, seen, trs)
    buildGo e fuel next.1 next.2.1 next.2.2

/-- Modelled from the spec: the subset construction `Dfa::from(&alt)` of the
`finite_automata` crate (section 4.5).  The initial DFA state is
`ε-close({initial})`; the worklist is seeded with it; a DFA state is
accepting iff it contains an accepting ε-NFA member (P2); states keep their
member sets (P3) and are then numbered in discovery order.  The fuel
`2 ^ |states| + 1` dominates the number of distinct subsets, so the worklist
always drains before the fuel does. -/
def dfaBuild (e : TEnfa Nat) : DfaData Nat :=
  let D0 := eclose e [e.initial]
  let built := buildGo e (2 ^ e.states.length + 1) [D0] [D0] []
  let seen := built.1
  { initialIndex := 0,
    states := seen,
    transitions := built.2.map (fun tr => (seen.indexOf tr.1, tr.2.1, seen.indexOf tr.2.2)),
    finals := seen.enum.filterMap
      (fun p => if p.2.any (fun m => m ∈ e.finals) then some p.1 else none) }

/-- The lexer of `lexer-bootstrap/src/lexer.rs`: the production catalogue and
the optional compiled DFA. -/
structure Lexer where
  productions : List (Re × Option Nat)
  dfa : Option (DfaData Nat)

/-- `Lexer::new`: store the productions, DFA absent. -/
def Lexer.new (prods : List (Re × Option Nat)) : Lexer :=
  ⟨prods, none⟩

/-- `Lexer::compile` (`lexer-bootstrap/src/lexer.rs:53-71`): when no DFA has
been built yet, compile each production's fragment, union them and run the
subset construction; otherwise do nothing. -/
def Lexer.compile (l : Lexer) : Lexer :=
  if l.dfa.isNone then { l with dfa := some (dfaBuild (buildUnion l.productions)) } else l

/-- `Lexer::lex` (`lexer-bootstrap/src/lexer.rs:73-122`): scan with the
compiled DFA, or fail with `NotCompiled` when `compile` has not run. -/
def Lexer.lex (l : Lexer) (text : List Nat) (fuel : Nat) : LexOutcome Nat :=
  match l.dfa with
  | some d => lexGo d text d.initialIndex [] [] fuel
  | none => .notCompiled

/-- The singleton class `sym![sgl!('A')]`. -/
def sglA : Re := .symbol [(65, 65)]

/-- The singleton class `sym![sgl!('B')]`. -/
def sglB : Re := .symbol [(66, 66)]

/-- The singleton class `sym![sgl!(' ')]`. -/
def sglSpace : Re := .symbol [(32, 32)]

/-- The catalogue of claim C1 and `tests::test_3`:
`{ /A/ => A(0), /AB/ => AB(1), /BB/ => BB(2), /B/ => B(3) }`. -/
def prodsC1 : List (Re × Option Nat) :=
  [(sglA, some 0), (.concatenation [sglA, sglB], some 1),
   (.concatenation [sglB, sglB], some 2), (sglB, some 3)]

/-- The compiled lexer for `prodsC1`. -/
def lexerC1 : Lexer := Lexer.compile (Lexer.new prodsC1)

/-- The regex `/ab/` over lowercase a, b. -/
def reLowAB : Re := .concatenation [.symbol [(97, 97)], .symbol [(98, 98)]]

/-- The catalogue of claim C2, `{ /ab/ => X(0), /ab/ => Y(1) }`, as the
`map!` macro builds it: the duplicate key keeps only the last binding. -/
def prodsC2 : List (Re × Option Nat) := mapFromList [(reLowAB, some 0), (reLowAB, some 1)]

/-- The compiled lexer for `prodsC2`. -/
def lexerC2 : Lexer := Lexer.compile (Lexer.new prodsC2)

/-- Two distinct productions, `/a/ => X(0)` and `/a|b/ => Y(1)`, that accept
a common lexeme `"a"` (so their distinct tags meet in one accepting DFA
state). -/
def prodsC2b : List (Re × Option Nat) :=
  [(.symbol [(97, 97)], some 0), (.alternation [.symbol [(97, 97)], .symbol [(98, 98)]], some 1)]

/-- The compiled lexer for `prodsC2b`. -/
def lexerC2b : Lexer := Lexer.compile (Lexer.new prodsC2b)

/-- The catalogue `{ /A/ => A(0), /AAB/ => AAB(1) }`: scanning `"AA…"` can
overrun the accepting state reached after `"A"`. -/
def prodsC3 : List (Re × Option Nat) :=
  [(sglA, some 0), (.concatenation [sglA, sglA, sglB], some 1)]

/-- The compiled lexer for `prodsC3`. -/
def lexerC3 : Lexer := Lexer.compile (Lexer.new prodsC3)

/-- The one-production catalogue `{ /A/ => A(0) }` (nothing nullable). -/
def prodsC4 : List (Re × Option Nat) := [(sglA, some 0)]

/-- The compiled lexer for `prodsC4`. -/
def lexerC4 : Lexer := Lexer.compile (Lexer.new prodsC4)

/-- The one-production nullable catalogue `{ /A*/ => X(0) }`: its initial
DFA state is accepting with a present tag. -/
def prodsC4n : List (Re × Option Nat) := [(.repetition sglA, some 0)]

/-- The compiled lexer for `prodsC4n`. -/
def lexerC4n : Lexer := Lexer.compile (Lexer.new prodsC4n)

/-- Two nullable tagged productions `{ /A*/ => X(0), /B*/ => Y(1) }`: both
tags meet in the accepting initial DFA state. -/
def prodsC4n2 : List (Re × Option Nat) :=
  [(.repetition sglA, some 0), (.repetition sglB, some 1)]

/-- The compiled lexer for `prodsC4n2`. -/
def lexerC4n2 : Lexer := Lexer.compile (Lexer.new prodsC4n2)

/-- The catalogue of claim C5: `{ /A/ => A(0), /B/ => B(1), / / => skip }`. -/
def prodsC5 : List (Re × Option Nat) := [(sglA, some 0), (sglB, some 1), (sglSpace, none)]

/-- The compiled lexer for `prodsC5`. -/
def lexerC5 : Lexer := Lexer.compile (Lexer.new prodsC5)

/-- The catalogue of `tests::test_1`:
`{ /A/ => A(0), /B/ => B(1), / */ => skip }` — the skip production is
nullable, so the initial DFA state is accepting. -/
def prodsC10 : List (Re × Option Nat) :=
  [(sglA, some 0), (sglB, some 1), (.repetition sglSpace, none)]

/-- The compiled lexer for `prodsC10`. -/
def lexerC10 : Lexer := Lexer.compile (Lexer.new prodsC10)

end Boot

namespace Root

/-- The regex AST of `src/re.rs` (`RE`). -/
inductive RE where
  | epsilon
  | symbol (symbol : Char)
  | alternation (res : List RE)
  | concatenation (res : List RE)
  | repetition (re : RE)

/-- The ε-NFA of `src/nfa.rs` (`NFA<u32, Option<char>>`) at the observable
level: the state store in insertion order (the source keys states by an
internal index through the inverse maps `st_ix`/`ix_st`; `insert_state`
never duplicates, so the maps are a bijection and transitions are recorded
here directly at the state level, exactly as `get_transitions` exposes
them), the transition set, and the accepting states.  The initial state is
the first inserted (`INIT_IX = 0`). -/
structure Enfa where
  states : List Nat
  transitions : List (Nat × Option Char × Nat)
  finals : List Nat
deriving DecidableEq, Repr

/-- `NFA::new`: a store holding only the initial state. -/
def Enfa.new (s : Nat) : Enfa := ⟨[s], [], []⟩

/-- `NFA::insert_state`: a no-op when the state is already stored. -/
def Enfa.insertState (e : Enfa) (s : Nat) : Enfa :=
  if s ∈ e.states then e else { e with states := e.states ++ [s] }

/-- `NFA::insert_transition` (the target sets of the transition map are
sets, so re-inserting is a no-op). -/
def Enfa.insertTransition (e : Enfa) (t : Nat × Option Char × Nat) : Enfa :=
  if t ∈ e.transitions then e else { e with transitions := e.transitions ++ [t] }

/-- `NFA::set_final`. -/
def Enfa.setFinal (e : Enfa) (s : Nat) : Enfa :=
  if s ∈ e.finals then e else { e with finals := e.finals ++ [s] }

/-- `NFA::get_initial`: the state at `INIT_IX = 0`. -/
def Enfa.initial (e : Enfa) : Nat := e.states.headD 0

/-- Graft one transition of a sub-fragment (`_from_re`'s four-way match on
whether either endpoint is already stored: every branch stores the missing
endpoints and then inserts the transition). -/
def Enfa.graftOne (e : Enfa) (t : Nat × Option Char × Nat) : Enfa :=
  ((e.insertState t.1).insertState t.2.2).insertTransition t

/-- Graft every transition of a sub-fragment (`for (start, ev, end) in
re_enfa.get_transitions()`). -/
def Enfa.graft (e : Enfa) (ts : List (Nat × Option Char × Nat)) : Enfa :=
  ts.foldl Enfa.graftOne e

/-- The two fresh states every `_from_re` case starts with: `ENFA::new(i)`
with `i = ids.next()`, then `insert_state(f)` and `set_final(f)` with
`f = ids.next()` (so `i = n`, `f = n + 1`). -/
def enfaBase (n : Nat) : Enfa :=
  ((Enfa.new n).insertState (n + 1)).setFinal (n + 1)

/-- The per-alternative wiring of `_from_re`'s `Alternation` loop: graft the
sub-fragment's transitions, store its initial and add
`initial --ε-> initial(sub)` (`INIT_IX` is the accumulator's initial state),
then store each of its accepting states and add `final(sub) --ε-> f`. -/
def altWire (e : Enfa) (sub : Enfa) (f : Nat) : Enfa :=
  let e1 := e.graft sub.transitions
  let e2 := (e1.insertState sub.initial).insertTransition (e1.initial, none, sub.initial)
  sub.finals.foldl (fun ep sf => (ep.insertState sf).insertTransition (sf, none, f)) e2

/-- The per-component wiring of `_from_re`'s `Concatenation` loop: graft the
sub-fragment's transitions, wire every previous accepting state to its
initial (storing the initial on the way), and store its accepting states
(which become the next `prev_re_enfa_final_ixs`). -/
def catWire (e : Enfa) (sub : Enfa) (prevs : List Nat) : Enfa :=
  let e1 := e.graft sub.transitions
  let e2 := prevs.foldl
    (fun ep p => (ep.insertState sub.initial).insertTransition (p, none, sub.initial)) e1
  sub.finals.foldl (fun ep sf => ep.insertState sf) e2

/-- The wiring of `_from_re`'s `Repetition` case around an already-compiled
sub-fragment: fresh `i = n`, `f = n + 1`, graft the sub-fragment, add
`i --ε-> initial(sub)`, then for each accepting state of the sub-fragment
add `final(sub) --ε-> f` and the loopback `final(sub) --ε-> initial(sub)`,
and finally `i --ε-> f` for zero repetitions. -/
def repWire (sub : Enfa) (n : Nat) : Enfa :=
  let e1 := (enfaBase n).graft sub.transitions
  let e2 := (e1.insertState sub.initial).insertTransition (e1.initial, none, sub.initial)
  let e3 := sub.finals.foldl
    (fun ep sf =>
      ((ep.insertState sf).insertTransition (sf, none, n + 1)).insertTransition
        (sf, none, sub.initial))
    e2
  e3.insertTransition (e3.initial, none, n + 1)

mutual

/-- `ENFA::_from_re` of `src/nfa.rs`: compile a regex into an ε-NFA
fragment, minting state identities from the monotone id source `ids`
(modelled as a counter; `_from_re` draws from `0..u32::MAX`, which the trees
considered never exhaust).  Returns the fragment and the next unused id. -/
def reToEnfa : RE → Nat → Enfa × Nat
  | .epsilon, n => ((enfaBase n).insertTransition (n, none, n + 1), n + 2)
  | .symbol c, n => ((enfaBase n).insertTransition (n, some c, n + 1), n + 2)
  | .alternation res, n => altGo (n + 1) res (enfaBase n) (n + 2)
  | .concatenation res, n => catGo (n + 1) res (enfaBase n) [n] (n + 2)
  | .repetition r, n => (repWire (reToEnfa r (n + 2)).1 n, (reToEnfa r (n + 2)).2)

/-- The alternation loop of `_from_re` over the remaining alternatives. -/
def altGo (f : Nat) : List RE → Enfa → Nat → Enfa × Nat
  | [], e, n => (e, n)
  | r :: rest, e, n =>
    altGo f rest (altWire e (reToEnfa r n).1 f) (reToEnfa r n).2

/-- The concatenation loop of `_from_re` over the remaining components,
carrying the previous accepting states; at the end every carried accepting
state is wired to `f`. -/
def catGo (f : Nat) : List RE → Enfa → List Nat → Nat → Enfa × Nat
  | [], e, prevs, n => (prevs.foldl (fun ep p => ep.insertTransition (p, none, f)) e, n)
  | r :: rest, e, prevs, n =>
    catGo f rest (catWire e (reToEnfa r n).1 prevs) (reToEnfa r n).1.finals (reToEnfa r n).2

end

/-- Well-formedness of a fragment built from id counter at least `lo`: the
store is non-empty, every state id is at least `lo`, transition endpoints are
stored, and accepting states are stored. -/
def Wf (e : Enfa) (lo : Nat) : Prop :=
  e.states ≠ [] ∧ (∀ s ∈ e.states, lo ≤ s) ∧
    (∀ t ∈ e.transitions, t.1 ∈ e.states ∧ t.2.2 ∈ e.states) ∧
    (∀ s ∈ e.finals, s ∈ e.states)

end Root

namespace Root

theorem states_insertState_eq (e : Enfa) (s : Nat) :
    (e.insertState s).states = e.states ∨ (e.insertState s).states = e.states ++ [s] := by
  unfold Enfa.insertState
  split <;> simp

@[simp] theorem transitions_insertState (e : Enfa) (s : Nat) :
    (e.insertState s).transitions = e.transitions := by
  unfold Enfa.insertState
  split <;> rfl

@[simp] theorem finals_insertState (e : Enfa) (s : Nat) :
    (e.insertState s).finals = e.finals := by
  unfold Enfa.insertState
  split <;> rfl

@[simp] theorem states_insertTransition (e : Enfa) (t : Nat × Option Char × Nat) :
    (e.insertTransition t).states = e.states := by
  unfold Enfa.insertTransition
  split <;> rfl

@[simp] theorem finals_insertTransition (e : Enfa) (t : Nat × Option Char × Nat) :
    (e.insertTransition t).finals = e.finals := by
  unfold Enfa.insertTransition
  split <;> rfl

@[simp] theorem states_setFinal (e : Enfa) (s : Nat) :
    (e.setFinal s).states = e.states := by
  unfold Enfa.setFinal
  split <;> rfl

@[simp] theorem transitions_setFinal (e : Enfa) (s : Nat) :
    (e.setFinal s).transitions = e.transitions := by
  unfold Enfa.setFinal
  split <;> rfl

theorem mem_states_insertState {a : Nat} (e : Enfa) (s : Nat) :
    a ∈ (e.insertState s).states ↔ a ∈ e.states ∨ a = s := by
  unfold Enfa.insertState
  split <;> rename_i h
  · constructor
    · exact Or.inl
    · rintro (ha | rfl)
      · exact ha
      · exact h
  · simp only [List.mem_append, List.mem_singleton]

theorem mem_transitions_insertTransition (e : Enfa) (t t' : Nat × Option Char × Nat) :
    t' ∈ (e.insertTransition t).transitions ↔ t' ∈ e.transitions ∨ t' = t := by
  unfold Enfa.insertTransition
  split <;> rename_i h
  · constructor
    · exact Or.inl
    · rintro (ha | rfl)
      · exact ha
      · exact h
  · simp only [List.mem_append, List.mem_singleton]

theorem mem_finals_setFinal (e : Enfa) (s a : Nat) :
    a ∈ (e.setFinal s).finals ↔ a ∈ e.finals ∨ a = s := by
  unfold Enfa.setFinal
  split <;> rename_i h
  · constructor
    · exact Or.inl
    · rintro (ha | rfl)
      · exact ha
      · exact h
  · simp only [List.mem_append, List.mem_singleton]

theorem mem_states_graftOne {a : Nat} (e : Enfa) (t : Nat × Option Char × Nat) :
    a ∈ (e.graftOne t).states ↔ a ∈ e.states ∨ a = t.1 ∨ a = t.2.2 := by
  unfold Enfa.graftOne
  rw [states_insertTransition, mem_states_insertState, mem_states_insertState]
  tauto

theorem mem_transitions_graftOne (e : Enfa) (t t' : Nat × Option Char × Nat) :
    t' ∈ (e.graftOne t).transitions ↔ t' ∈ e.transitions ∨ t' = t := by
  unfold Enfa.graftOne
  rw [mem_transitions_insertTransition, transitions_insertState, transitions_insertState]

@[simp] theorem finals_graftOne (e : Enfa) (t : Nat × Option Char × Nat) :
    (e.graftOne t).finals = e.finals := by
  unfold Enfa.graftOne
  rw [finals_insertTransition, finals_insertState, finals_insertState]

theorem mem_states_foldl {α : Type} (h : Enfa → α → Enfa) (Q : α → Nat → Prop)
    (H : ∀ e x s, s ∈ (h e x).states ↔ s ∈ e.states ∨ Q x s) :
    ∀ (xs : List α) (e : Enfa) (s : Nat),
      s ∈ (xs.foldl h e).states ↔ s ∈ e.states ∨ ∃ x ∈ xs, Q x s := by
  intro xs
  induction xs with
  | nil => simp
  | cons x xs ih =>
    intro e s
    rw [List.foldl_cons, ih, H]
    simp only [List.mem_cons]
    constructor
    · rintro ((hs | hq) | ⟨y, hy, hq⟩)
      · exact Or.inl hs
      · exact Or.inr ⟨x, Or.inl rfl, hq⟩
      · exact Or.inr ⟨y, Or.inr hy, hq⟩
    · rintro (hs | ⟨y, (rfl | hy), hq⟩)
      · exact Or.inl (Or.inl hs)
      · exact Or.inl (Or.inr hq)
      · exact Or.inr ⟨y, hy, hq⟩

theorem mem_transitions_foldl {α : Type} (h : Enfa → α → Enfa)
    (Q : α → Nat × Option Char × Nat → Prop)
    (H : ∀ e x t, t ∈ (h e x).transitions ↔ t ∈ e.transitions ∨ Q x t) :
    ∀ (xs : List α) (e : Enfa) (t : Nat × Option Char × Nat),
      t ∈ (xs.foldl h e).transitions ↔ t ∈ e.transitions ∨ ∃ x ∈ xs, Q x t := by
  intro xs
  induction xs with
  | nil => simp
  | cons x xs ih =>
    intro e t
    rw [List.foldl_cons, ih, H]
    simp only [List.mem_cons]
    constructor
    · rintro ((hs | hq) | ⟨y, hy, hq⟩)
      · exact Or.inl hs
      · exact Or.inr ⟨x, Or.inl rfl, hq⟩
      · exact Or.inr ⟨y, Or.inr hy, hq⟩
    · rintro (hs | ⟨y, (rfl | hy), hq⟩)
      · exact Or.inl (Or.inl hs)
      · exact Or.inl (Or.inr hq)
      · exact Or.inr ⟨y, hy, hq⟩

theorem finals_foldl {α : Type} (h : Enfa → α → Enfa)
    (H : ∀ e x, (h e x).finals = e.finals) :
    ∀ (xs : List α) (e : Enfa), (xs.foldl h e).finals = e.finals := by
  intro xs
  induction xs with
  | nil => intro e; rfl
  | cons x xs ih => intro e; rw [List.foldl_cons, ih, H]

theorem prefix_states_insertState (e : Enfa) (s : Nat) :
    e.states <+: (e.insertState s).states := by
  unfold Enfa.insertState
  split
  · exact List.prefix_rfl
  · exact List.prefix_append e.states [s]

theorem prefix_states_graftOne (e : Enfa) (t : Nat × Option Char × Nat) :
    e.states <+: (e.graftOne t).states := by
  unfold Enfa.graftOne
  rw [states_insertTransition]
  exact (prefix_states_insertState e t.1).trans (prefix_states_insertState _ t.2.2)

theorem prefix_states_foldl {α : Type} (h : Enfa → α → Enfa)
    (H : ∀ e x, e.states <+: (h e x).states) :
    ∀ (xs : List α) (e : Enfa), e.states <+: (xs.foldl h e).states := by
  intro xs
  induction xs with
  | nil => intro e; exact List.prefix_rfl
  | cons x xs ih => intro e; exact (H e x).trans (ih (h e x))

theorem prefix_states_graft (e : Enfa) (ts : List (Nat × Option Char × Nat)) :
    e.states <+: (e.graft ts).states :=
  prefix_states_foldl Enfa.graftOne prefix_states_graftOne ts e

theorem mem_states_graft {a : Nat} (e : Enfa) (ts : List (Nat × Option Char × Nat)) :
    a ∈ (e.graft ts).states ↔ a ∈ e.states ∨ ∃ t ∈ ts, a = t.1 ∨ a = t.2.2 :=
  mem_states_foldl Enfa.graftOne (fun t s => s = t.1 ∨ s = t.2.2)
    (fun _ _ _ => mem_states_graftOne _ _) ts e a

theorem mem_transitions_graft (e : Enfa) (ts : List (Nat × Option Char × Nat))
    (t' : Nat × Option Char × Nat) :
    t' ∈ (e.graft ts).transitions ↔ t' ∈ e.transitions ∨ t' ∈ ts := by
  unfold Enfa.graft
  rw [mem_transitions_foldl Enfa.graftOne (fun t u => u = t)
    (fun _ _ _ => mem_transitions_graftOne _ _ _) ts e t']
  simp

@[simp] theorem finals_graft (e : Enfa) (ts : List (Nat × Option Char × Nat)) :
    (e.graft ts).finals = e.finals :=
  finals_foldl Enfa.graftOne (fun _ _ => finals_graftOne _ _) ts e

theorem initial_eq_of_extension {e e' : Enfa} (hne : e.states ≠ [])
    (h : e.states <+: e'.states) : e'.initial = e.initial := by
  obtain ⟨u, hu⟩ := h
  cases hst : e.states with
  | nil => exact absurd hst hne
  | cons a l =>
    rw [hst] at hu
    unfold Enfa.initial
    rw [← hu, hst]
    rfl

theorem Wf.mono {e : Enfa} {lo lo' : Nat} (h : Wf e lo') (hle : lo ≤ lo') : Wf e lo :=
  ⟨h.1, fun s hs => le_trans hle (h.2.1 s hs), h.2.2⟩

theorem Wf.initial_mem {e : Enfa} {lo : Nat} (h : Wf e lo) : e.initial ∈ e.states := by
  cases hst : e.states with
  | nil => exact absurd hst h.1
  | cons a l =>
    unfold Enfa.initial
    rw [hst]
    exact List.mem_cons_self a l

theorem Wf.states_ne {e : Enfa} {lo : Nat} (h : Wf e lo) : e.states ≠ [] := h.1

theorem Wf_insertState {e : Enfa} {lo s : Nat} (h : Wf e lo) (hs : lo ≤ s) :
    Wf (e.insertState s) lo := by
  refine ⟨?_, ?_, ?_, ?_⟩
  · intro hc
    exact h.1 (List.prefix_nil.mp (hc ▸ prefix_states_insertState e s))
  · intro a ha
    rcases (mem_states_insertState e s).mp ha with ha | rfl
    · exact h.2.1 a ha
    · exact hs
  · intro t ht
    rw [transitions_insertState] at ht
    obtain ⟨h1, h2⟩ := h.2.2.1 t ht
    exact ⟨(mem_states_insertState e s).mpr (Or.inl h1),
      (mem_states_insertState e s).mpr (Or.inl h2)⟩
  · intro a ha
    rw [finals_insertState] at ha
    exact (mem_states_insertState e s).mpr (Or.inl (h.2.2.2 a ha))

theorem Wf_insertTransition {e : Enfa} {lo : Nat} {t : Nat × Option Char × Nat}
    (h : Wf e lo) (h1 : t.1 ∈ e.states) (h2 : t.2.2 ∈ e.states) :
    Wf (e.insertTransition t) lo := by
  refine ⟨?_, ?_, ?_, ?_⟩
  · rw [states_insertTransition]; exact h.1
  · rw [states_insertTransition] at *; exact h.2.1
  · intro u hu
    rw [states_insertTransition]
    rcases (mem_transitions_insertTransition e t u).mp hu with hu | rfl
    · exact h.2.2.1 u hu
    · exact ⟨h1, h2⟩
  · intro a ha
    rw [finals_insertTransition] at ha
    rw [states_insertTransition]
    exact h.2.2.2 a ha

theorem Wf_setFinal {e : Enfa} {lo s : Nat} (h : Wf e lo) (hs : s ∈ e.states) :
    Wf (e.setFinal s) lo := by
  refine ⟨?_, ?_, ?_, ?_⟩
  · rw [states_setFinal]; exact h.1
  · rw [states_setFinal]; exact h.2.1
  · intro u hu
    rw [transitions_setFinal] at hu
    rw [states_setFinal]
    exact h.2.2.1 u hu
  · intro a ha
    rw [states_setFinal]
    rcases (mem_finals_setFinal e s a).mp ha with ha | rfl
    · exact h.2.2.2 a ha
    · exact hs

theorem Wf_graftOne {e : Enfa} {lo : Nat} {t : Nat × Option Char × Nat}
    (h : Wf e lo) (h1 : lo ≤ t.1) (h2 : lo ≤ t.2.2) : Wf (e.graftOne t) lo := by
  unfold Enfa.graftOne
  refine Wf_insertTransition (Wf_insertState (Wf_insertState h h1) h2) ?_ ?_
  · rw [mem_states_insertState]
    exact Or.inl ((mem_states_insertState e t.1).mpr (Or.inr rfl))
  · rw [mem_states_insertState]
    exact Or.inr rfl

theorem Wf_graft {e : Enfa} {lo : Nat} {ts : List (Nat × Option Char × Nat)}
    (h : Wf e lo) (hts : ∀ t ∈ ts, lo ≤ t.1 ∧ lo ≤ t.2.2) : Wf (e.graft ts) lo := by
  induction ts generalizing e with
  | nil => exact h
  | cons t ts ih =>
    exact ih (Wf_graftOne h (hts t (List.mem_cons_self t ts)).1
      (hts t (List.mem_cons_self t ts)).2)
      (fun u hu => hts u (List.mem_cons_of_mem t hu))

theorem Wf_prevFold {lo f : Nat} :
    ∀ (prevs : List Nat) (e : Enfa), Wf e lo → f ∈ e.states →
      (∀ p ∈ prevs, p ∈ e.states) →
      Wf (prevs.foldl (fun ep p => ep.insertTransition (p, none, f)) e) lo := by
  intro prevs
  induction prevs with
  | nil => intro e h _ _; exact h
  | cons p ps ih =>
    intro e h hf hp
    rw [List.foldl_cons]
    refine ih _ (Wf_insertTransition h (hp p (List.mem_cons_self p ps)) hf) ?_ ?_
    · rw [states_insertTransition]; exact hf
    · intro q hq
      rw [states_insertTransition]
      exact hp q (List.mem_cons_of_mem p hq)

theorem Wf_altFold {lo f : Nat} :
    ∀ (fs : List Nat) (e : Enfa), Wf e lo → f ∈ e.states → (∀ s ∈ fs, lo ≤ s) →
      Wf (fs.foldl (fun ep sf => (ep.insertState sf).insertTransition (sf, none, f)) e) lo := by
  intro fs
  induction fs with
  | nil => intro e h _ _; exact h
  | cons s ss ih =>
    intro e h hf hs
    rw [List.foldl_cons]
    refine ih _ ?_ ?_ (fun q hq => hs q (List.mem_cons_of_mem s hq))
    · refine Wf_insertTransition (Wf_insertState h (hs s (List.mem_cons_self s ss))) ?_ ?_
      · exact (mem_states_insertState e s).mpr (Or.inr rfl)
      · exact (mem_states_insertState e s).mpr (Or.inl hf)
    · rw [states_insertTransition, mem_states_insertState]
      exact Or.inl hf

theorem Wf_repFold {lo a b : Nat} :
    ∀ (fs : List Nat) (e : Enfa), Wf e lo → a ∈ e.states → b ∈ e.states →
      (∀ s ∈ fs, lo ≤ s) →
      Wf (fs.foldl (fun ep sf =>
        ((ep.insertState sf).insertTransition (sf, none, a)).insertTransition
          (sf, none, b)) e) lo := by
  intro fs
  induction fs with
  | nil => intro e h _ _ _; exact h
  | cons s ss ih =>
    intro e h ha hb hs
    rw [List.foldl_cons]
    have hs' : s ∈ (e.insertState s).states := (mem_states_insertState e s).mpr (Or.inr rfl)
    have ha' : a ∈ (e.insertState s).states := (mem_states_insertState e s).mpr (Or.inl ha)
    have hb' : b ∈ (e.insertState s).states := (mem_states_insertState e s).mpr (Or.inl hb)
    refine ih _ ?_ ?_ ?_ (fun q hq => hs q (List.mem_cons_of_mem s hq))
    · refine Wf_insertTransition
        (Wf_insertTransition (Wf_insertState h (hs s (List.mem_cons_self s ss))) hs' ha') ?_ ?_
      · rw [states_insertTransition]; exact hs'
      · rw [states_insertTransition]; exact hb'
    · rw [states_insertTransition, states_insertTransition]; exact ha'
    · rw [states_insertTransition, states_insertTransition]; exact hb'

theorem Wf_stFold {lo : Nat} :
    ∀ (fs : List Nat) (e : Enfa), Wf e lo → (∀ s ∈ fs, lo ≤ s) →
      Wf (fs.foldl (fun ep sf => ep.insertState sf) e) lo := by
  intro fs
  induction fs with
  | nil => intro e h _; exact h
  | cons s ss ih =>
    intro e h hs
    rw [List.foldl_cons]
    exact ih _ (Wf_insertState h (hs s (List.mem_cons_self s ss)))
      (fun q hq => hs q (List.mem_cons_of_mem s hq))

theorem base_states (n : Nat) : (enfaBase n).states = [n, n + 1] := by
  unfold enfaBase
  rw [states_setFinal]
  unfold Enfa.insertState Enfa.new
  simp

theorem base_transitions (n : Nat) : (enfaBase n).transitions = [] := by
  unfold enfaBase
  rw [transitions_setFinal, transitions_insertState]
  rfl

theorem base_finals (n : Nat) : (enfaBase n).finals = [n + 1] := by
  unfold enfaBase Enfa.setFinal
  rw [finals_insertState]
  split <;> rename_i h
  · exact absurd h (by simp [Enfa.new])
  · rfl

theorem base_wf (n : Nat) : Wf (enfaBase n) n := by
  refine ⟨?_, ?_, ?_, ?_⟩
  · rw [base_states]; simp
  · rw [base_states]
    intro s hs
    simp only [List.mem_cons, List.not_mem_nil, or_false] at hs
    rcases hs with rfl | rfl <;> omega
  · rw [base_transitions]; simp
  · rw [base_finals, base_states]; simp

theorem base_initial (n : Nat) : (enfaBase n).initial = n := by
  unfold Enfa.initial
  rw [base_states]
  rfl

theorem prefix_states_altFold (f : Nat) (fs : List Nat) (e : Enfa) :
    e.states <+:
      (fs.foldl (fun ep sf => (ep.insertState sf).insertTransition (sf, none, f)) e).states :=
  prefix_states_foldl _
    (fun e x => by rw [states_insertTransition]; exact prefix_states_insertState e x) fs e

theorem prefix_states_repFold (a b : Nat) (fs : List Nat) (e : Enfa) :
    e.states <+:
      (fs.foldl (fun ep sf =>
        ((ep.insertState sf).insertTransition (sf, none, a)).insertTransition
          (sf, none, b)) e).states :=
  prefix_states_foldl _
    (fun e x => by
      rw [states_insertTransition, states_insertTransition]
      exact prefix_states_insertState e x) fs e

theorem prefix_states_stFold (fs : List Nat) (e : Enfa) :
    e.states <+: (fs.foldl (fun ep sf => ep.insertState sf) e).states :=
  prefix_states_foldl _ (fun e x => prefix_states_insertState e x) fs e

theorem prefix_states_prevFold (si : Nat) (ps : List Nat) (e : Enfa) :
    e.states <+:
      (ps.foldl (fun ep p => (ep.insertState si).insertTransition (p, none, si)) e).states :=
  prefix_states_foldl _
    (fun e x => by rw [states_insertTransition]; exact prefix_states_insertState e si) ps e

theorem mem_states_stFold (fs : List Nat) (e : Enfa) (s : Nat) :
    s ∈ (fs.foldl (fun ep sf => ep.insertState sf) e).states ↔ s ∈ e.states ∨ s ∈ fs := by
  rw [mem_states_foldl (fun ep sf => ep.insertState sf) (fun x s => s = x)
    (fun _ _ _ => mem_states_insertState _ _) fs e s]
  simp

theorem Wf_catPrevFold {lo si : Nat} (hsi : lo ≤ si) :
    ∀ (ps : List Nat) (e : Enfa), Wf e lo → (∀ p ∈ ps, p ∈ e.states) →
      Wf (ps.foldl (fun ep p => (ep.insertState si).insertTransition (p, none, si)) e) lo := by
  intro ps
  induction ps with
  | nil => intro e h _; exact h
  | cons p ps ih =>
    intro e h hp
    rw [List.foldl_cons]
    refine ih _ ?_ ?_
    · refine Wf_insertTransition (Wf_insertState h hsi) ?_ ?_
      · exact (mem_states_insertState e si).mpr (Or.inl (hp p (List.mem_cons_self p ps)))
      · exact (mem_states_insertState e si).mpr (Or.inr rfl)
    · intro q hq
      rw [states_insertTransition, mem_states_insertState]
      exact Or.inl (hp q (List.mem_cons_of_mem p hq))

theorem Wf_altWire {e sub : Enfa} {f lo m : Nat}
    (h : Wf e lo) (hsub : Wf sub m) (hm : lo ≤ m) (hf : f ∈ e.states) :
    Wf (altWire e sub f) lo := by
  unfold altWire
  have hw1 : Wf (e.graft sub.transitions) lo :=
    Wf_graft h (fun t ht =>
      ⟨le_trans hm (hsub.2.1 t.1 (hsub.2.2.1 t ht).1),
        le_trans hm (hsub.2.1 t.2.2 (hsub.2.2.1 t ht).2)⟩)
  have hw2 : Wf (((e.graft sub.transitions).insertState sub.initial).insertTransition
      ((e.graft sub.transitions).initial, none, sub.initial)) lo := by
    refine Wf_insertTransition (Wf_insertState hw1
      (le_trans hm (hsub.2.1 _ hsub.initial_mem))) ?_ ?_
    · exact (mem_states_insertState _ _).mpr (Or.inl hw1.initial_mem)
    · exact (mem_states_insertState _ _).mpr (Or.inr rfl)
  refine Wf_altFold sub.finals _ hw2 ?_ ?_
  · rw [states_insertTransition, mem_states_insertState]
    exact Or.inl ((prefix_states_graft e sub.transitions).subset hf)
  · intro s hs
    exact le_trans hm (hsub.2.1 s (hsub.2.2.2 s hs))

theorem prefix_states_altWire (e sub : Enfa) (f : Nat) :
    e.states <+: (altWire e sub f).states := by
  unfold altWire
  have h3 : ((e.graft sub.transitions).insertState sub.initial).states <+:
      (((e.graft sub.transitions).insertState sub.initial).insertTransition
        ((e.graft sub.transitions).initial, none, sub.initial)).states := by
    rw [states_insertTransition]
  exact (((prefix_states_graft e sub.transitions).trans
    (prefix_states_insertState _ sub.initial)).trans h3).trans
    (prefix_states_altFold f sub.finals _)

theorem Wf_catWire {e sub : Enfa} {lo m : Nat} {prevs : List Nat}
    (h : Wf e lo) (hsub : Wf sub m) (hm : lo ≤ m) (hp : ∀ p ∈ prevs, p ∈ e.states) :
    Wf (catWire e sub prevs) lo := by
  unfold catWire
  have hw1 : Wf (e.graft sub.transitions) lo :=
    Wf_graft h (fun t ht =>
      ⟨le_trans hm (hsub.2.1 t.1 (hsub.2.2.1 t ht).1),
        le_trans hm (hsub.2.1 t.2.2 (hsub.2.2.1 t ht).2)⟩)
  have hw2 : Wf (prevs.foldl
      (fun ep p => (ep.insertState sub.initial).insertTransition (p, none, sub.initial))
      (e.graft sub.transitions)) lo := by
    refine Wf_catPrevFold (le_trans hm (hsub.2.1 _ hsub.initial_mem)) prevs _ hw1 ?_
    intro p hp'
    exact (prefix_states_graft e sub.transitions).subset (hp p hp')
  refine Wf_stFold sub.finals _ hw2 ?_
  intro s hs
  exact le_trans hm (hsub.2.1 s (hsub.2.2.2 s hs))

theorem prefix_states_catWire (e sub : Enfa) (prevs : List Nat) :
    e.states <+: (catWire e sub prevs).states := by
  unfold catWire
  exact ((prefix_states_graft e sub.transitions).trans
    (prefix_states_prevFold sub.initial prevs _)).trans
    (prefix_states_stFold sub.finals _)

theorem finals_mem_catWire (e sub : Enfa) (prevs : List Nat) :
    ∀ sf ∈ sub.finals, sf ∈ (catWire e sub prevs).states := by
  intro sf hsf
  unfold catWire
  rw [mem_states_stFold]
  exact Or.inr hsf

theorem Wf_repWire {sub : Enfa} {n : Nat} (hsub : Wf sub (n + 2)) :
    Wf (repWire sub n) n := by
  unfold repWire
  have hw1 : Wf ((enfaBase n).graft sub.transitions) n :=
    Wf_graft (base_wf n) (fun t ht =>
      ⟨le_trans (by omega) (hsub.2.1 t.1 (hsub.2.2.1 t ht).1),
        le_trans (by omega) (hsub.2.1 t.2.2 (hsub.2.2.1 t ht).2)⟩)
  have hw2 : Wf ((((enfaBase n).graft sub.transitions).insertState sub.initial).insertTransition
      (((enfaBase n).graft sub.transitions).initial, none, sub.initial)) n := by
    refine Wf_insertTransition (Wf_insertState hw1
      (le_trans (by omega) (hsub.2.1 _ hsub.initial_mem))) ?_ ?_
    · exact (mem_states_insertState _ _).mpr (Or.inl hw1.initial_mem)
    · exact (mem_states_insertState _ _).mpr (Or.inr rfl)
  have hn1 : n + 1 ∈ ((((enfaBase n).graft sub.transitions).insertState sub.initial).insertTransition
      (((enfaBase n).graft sub.transitions).initial, none, sub.initial)).states := by
    rw [states_insertTransition, mem_states_insertState]
    refine Or.inl ((prefix_states_graft (enfaBase n) sub.transitions).subset ?_)
    rw [base_states]
    simp
  have hsi : sub.initial ∈ ((((enfaBase n).graft sub.transitions).insertState sub.initial).insertTransition
      (((enfaBase n).graft sub.transitions).initial, none, sub.initial)).states := by
    rw [states_insertTransition, mem_states_insertState]
    exact Or.inr rfl
  have hw3 := Wf_repFold sub.finals _ hw2 hn1 hsi
    (fun s hs => le_trans (by omega) (hsub.2.1 s (hsub.2.2.2 s hs)))
  refine Wf_insertTransition hw3 hw3.initial_mem ?_
  exact (prefix_states_repFold (n + 1) sub.initial sub.finals _).subset hn1

theorem build_wf (k : Nat) :
    (∀ r : RE, sizeOf r ≤ k → ∀ n : Nat,
      Wf (reToEnfa r n).1 n ∧ n + 2 ≤ (reToEnfa r n).2) ∧
    (∀ res : List RE, sizeOf res ≤ k → ∀ (f : Nat) (e : Enfa) (n lo : Nat),
      Wf e lo → f ∈ e.states → lo ≤ n →
      (Wf (altGo f res e n).1 lo ∧ n ≤ (altGo f res e n).2) ∧
      (∀ prevs : List Nat, (∀ p ∈ prevs, p ∈ e.states) →
        Wf (catGo f res e prevs n).1 lo ∧ n ≤ (catGo f res e prevs n).2)) := by
  induction k using Nat.strong_induction_on with
  | _ k ih =>
  constructor
  · intro r hr n
    cases r with
    | epsilon =>
      simp only [reToEnfa]
      refine ⟨?_, le_refl _⟩
      refine Wf_insertTransition (base_wf n) ?_ ?_ <;> rw [base_states] <;> simp
    | symbol c =>
      simp only [reToEnfa]
      refine ⟨?_, le_refl _⟩
      refine Wf_insertTransition (base_wf n) ?_ ?_ <;> rw [base_states] <;> simp
    | alternation res =>
      rw [RE.alternation.sizeOf_spec] at hr
      simp only [reToEnfa]
      have hbase : (n : Nat) + 1 ∈ (enfaBase n).states := by rw [base_states]; simp
      exact ((ih (k - 1) (by omega)).2 res (by omega) (n + 1) (enfaBase n) (n + 2) n
        (base_wf n) hbase (by omega)).1
    | concatenation res =>
      rw [RE.concatenation.sizeOf_spec] at hr
      simp only [reToEnfa]
      have hbase : (n : Nat) + 1 ∈ (enfaBase n).states := by rw [base_states]; simp
      refine ((ih (k - 1) (by omega)).2 res (by omega) (n + 1) (enfaBase n) (n + 2) n
        (base_wf n) hbase (by omega)).2 [n] ?_
      intro p hp
      rw [base_states]
      simp only [List.mem_singleton] at hp
      simp [hp]
    | repetition r =>
      rw [RE.repetition.sizeOf_spec] at hr
      obtain ⟨hwsub, hcnt⟩ := (ih (k - 1) (by omega)).1 r (by omega) (n + 2)
      simp only [reToEnfa]
      exact ⟨Wf_repWire hwsub, by omega⟩
  · intro res hres f e n lo hwe hf hlon
    cases res with
    | nil =>
      simp only [altGo, catGo]
      refine ⟨⟨hwe, le_refl n⟩, ?_⟩
      intro prevs hp
      exact ⟨Wf_prevFold prevs e hwe hf hp, le_refl n⟩
    | cons r rest =>
      rw [List.cons.sizeOf_spec] at hres
      obtain ⟨hwsub, hcnt⟩ := (ih (k - 1) (by omega)).1 r (by omega) n
      have ihrest := (ih (k - 1) (by omega)).2 rest (by omega)
      constructor
      · simp only [altGo]
        have hwW : Wf (altWire e (reToEnfa r n).1 f) lo := Wf_altWire hwe hwsub hlon hf
        have hfW : f ∈ (altWire e (reToEnfa r n).1 f).states :=
          (prefix_states_altWire e (reToEnfa r n).1 f).subset hf
        have H := (ihrest f (altWire e (reToEnfa r n).1 f) (reToEnfa r n).2 lo hwW hfW
          (by omega)).1
        exact ⟨H.1, by omega⟩
      · intro prevs hp
        simp only [catGo]
        have hwW : Wf (catWire e (reToEnfa r n).1 prevs) lo := Wf_catWire hwe hwsub hlon hp
        have hfW : f ∈ (catWire e (reToEnfa r n).1 prevs).states :=
          (prefix_states_catWire e (reToEnfa r n).1 prevs).subset hf
        have H := (ihrest f (catWire e (reToEnfa r n).1 prevs) (reToEnfa r n).2 lo hwW hfW
          (by omega)).2 (reToEnfa r n).1.finals
          (finals_mem_catWire e (reToEnfa r n).1 prevs)
        exact ⟨H.1, by omega⟩

theorem mem_transitions_repFold (a b : Nat) (fs : List Nat) (e : Enfa)
    (t : Nat × Option Char × Nat) :
    t ∈ (fs.foldl (fun ep sf =>
        ((ep.insertState sf).insertTransition (sf, none, a)).insertTransition
          (sf, none, b)) e).transitions ↔
      t ∈ e.transitions ∨ ∃ sf ∈ fs, t = (sf, none, a) ∨ t = (sf, none, b) := by
  refine mem_transitions_foldl _ (fun sf t => t = (sf, none, a) ∨ t = (sf, none, b))
    (fun e x t => ?_) fs e t
  rw [mem_transitions_insertTransition, mem_transitions_insertTransition,
    transitions_insertState]
  tauto

theorem finals_repFold (a b : Nat) (fs : List Nat) (e : Enfa) :
    (fs.foldl (fun ep sf =>
      ((ep.insertState sf).insertTransition (sf, none, a)).insertTransition
        (sf, none, b)) e).finals = e.finals :=
  finals_foldl _ (fun e x => by
    rw [finals_insertTransition, finals_insertTransition, finals_insertState]) fs e

theorem repWire_prefix_states (sub : Enfa) (n : Nat) :
    (enfaBase n).states <+: (repWire sub n).states := by
  unfold repWire
  have h2 : (((enfaBase n).graft sub.transitions).insertState sub.initial).states <+:
      ((((enfaBase n).graft sub.transitions).insertState sub.initial).insertTransition
        (((enfaBase n).graft sub.transitions).initial, none, sub.initial)).states := by
    rw [states_insertTransition]
  have h4 := prefix_states_repFold (n + 1) sub.initial sub.finals
    ((((enfaBase n).graft sub.transitions).insertState sub.initial).insertTransition
      (((enfaBase n).graft sub.transitions).initial, none, sub.initial))
  have h5 : ∀ (e : Enfa) (t : Nat × Option Char × Nat),
      e.states <+: (e.insertTransition t).states := by
    intro e t
    rw [states_insertTransition]
  exact ((((prefix_states_graft (enfaBase n) sub.transitions).trans
    (prefix_states_insertState _ sub.initial)).trans h2).trans h4).trans (h5 _ _)

theorem repWire_initial (sub : Enfa) (n : Nat) : (repWire sub n).initial = n := by
  have h := initial_eq_of_extension (e := enfaBase n)
    (by rw [base_states]; simp) (repWire_prefix_states sub n)
  rw [h, base_initial]

theorem repWire_finals (sub : Enfa) (n : Nat) : (repWire sub n).finals = [n + 1] := by
  unfold repWire
  rw [finals_insertTransition, finals_repFold, finals_insertTransition, finals_insertState,
    finals_graft, base_finals]

theorem repWire_trans_mem (sub : Enfa) (n : Nat) (t : Nat × Option Char × Nat) :
    t ∈ (repWire sub n).transitions ↔
      t ∈ sub.transitions ∨ t = (n, none, sub.initial) ∨
        (∃ sf ∈ sub.finals, t = (sf, none, sub.initial) ∨ t = (sf, none, n + 1)) ∨
        t = (n, none, n + 1) := by
  have hne : (enfaBase n).states ≠ [] := by rw [base_states]; simp
  have hinit1 : ((enfaBase n).graft sub.transitions).initial = n := by
    rw [initial_eq_of_extension hne (prefix_states_graft (enfaBase n) sub.transitions),
      base_initial]
  have h2 : (((enfaBase n).graft sub.transitions).insertState sub.initial).states <+:
      ((((enfaBase n).graft sub.transitions).insertState sub.initial).insertTransition
        (((enfaBase n).graft sub.transitions).initial, none, sub.initial)).states := by
    rw [states_insertTransition]
  have hinit3 : (sub.finals.foldl (fun ep sf =>
      ((ep.insertState sf).insertTransition (sf, none, n + 1)).insertTransition
        (sf, none, sub.initial))
      ((((enfaBase n).graft sub.transitions).insertState sub.initial).insertTransition
        (((enfaBase n).graft sub.transitions).initial, none, sub.initial))).initial = n := by
    rw [initial_eq_of_extension hne
      ((((prefix_states_graft (enfaBase n) sub.transitions).trans
        (prefix_states_insertState _ sub.initial)).trans h2).trans
        (prefix_states_repFold (n + 1) sub.initial sub.finals _)), base_initial]
  unfold repWire
  rw [mem_transitions_insertTransition, hinit3, mem_transitions_repFold,
    mem_transitions_insertTransition, hinit1, transitions_insertState,
    mem_transitions_graft, base_transitions]
  simp only [List.not_mem_nil, false_or]
  constructor
  · rintro ((((hs | rfl) | ⟨sf, hsf, (rfl | rfl)⟩) | rfl))
    · exact Or.inl hs
    · exact Or.inr (Or.inl rfl)
    · exact Or.inr (Or.inr (Or.inl ⟨sf, hsf, Or.inr rfl⟩))
    · exact Or.inr (Or.inr (Or.inl ⟨sf, hsf, Or.inl rfl⟩))
    · exact Or.inr (Or.inr (Or.inr rfl))
  · rintro (hs | rfl | ⟨sf, hsf, (rfl | rfl)⟩ | rfl)
    · exact Or.inl (Or.inl (Or.inl hs))
    · exact Or.inl (Or.inl (Or.inr rfl))
    · exact Or.inl (Or.inr ⟨sf, hsf, Or.inr rfl⟩)
    · exact Or.inl (Or.inr ⟨sf, hsf, Or.inl rfl⟩)
    · exact Or.inr rfl

theorem reToEnfa_rep_fst (r : RE) (n : Nat) :
    (reToEnfa (RE.repetition r) n).1 = repWire (reToEnfa r (n + 2)).1 n := by
  simp only [reToEnfa]

/-- Claim C6: compiling `Repetition(r)` from id counter `n` produces a
fragment whose initial state is the fresh id `i = n` and whose only
accepting state is the fresh id `f = n + 1` (both ids precede the
sub-fragment's ids, which `_from_re` mints from `n + 2` on, so `i` and `f`
do not occur in the sub-fragment); its transition set is exactly the
sub-fragment's transitions copied verbatim together with the ε-edges
`i -> initial(sub)`, `final(sub) -> initial(sub)` (loopback) and
`final(sub) -> f` for each accepting state of the sub-fragment, and
`i -> f` for zero repetitions. -/
theorem claim_C6 (r : RE) (n : Nat) :
    (reToEnfa (RE.repetition r) n).1.initial = n ∧
    n ∉ (reToEnfa r (n + 2)).1.states ∧
    (n + 1) ∉ (reToEnfa r (n + 2)).1.states ∧
    (reToEnfa (RE.repetition r) n).1.finals = [n + 1] ∧
    (∀ t, t ∈ (reToEnfa (RE.repetition r) n).1.transitions ↔
      t ∈ (reToEnfa r (n + 2)).1.transitions ∨
        t = (n, none, (reToEnfa r (n + 2)).1.initial) ∨
        (∃ sf ∈ (reToEnfa r (n + 2)).1.finals,
          t = (sf, none, (reToEnfa r (n + 2)).1.initial) ∨ t = (sf, none, n + 1)) ∨
        t = (n, none, n + 1)) := by
  have hwsub : Wf (reToEnfa r (n + 2)).1 (n + 2) :=
    ((build_wf (sizeOf r)).1 r (le_refl _) (n + 2)).1
  refine ⟨?_, ?_, ?_, ?_, ?_⟩
  · rw [reToEnfa_rep_fst, repWire_initial]
  · intro hmem
    have := hwsub.2.1 n hmem
    omega
  · intro hmem
    have := hwsub.2.1 (n + 1) hmem
    omega
  · rw [reToEnfa_rep_fst, repWire_finals]
  · intro t
    rw [reToEnfa_rep_fst, repWire_trans_mem]

end Root

namespace Boot

set_option linter.unusedSectionVars false

variable {T : Type} [DecidableEq T]

@[simp] theorem piecesText_nil : piecesText ([] : List (Option T × List Nat)) = [] := rfl

@[simp] theorem piecesText_cons (p : Option T × List Nat) (rest : List (Option T × List Nat)) :
    piecesText (p :: rest) = p.2 ++ piecesText rest := rfl

@[simp] theorem piecesTokens_nil : piecesTokens ([] : List (Option T × List Nat)) = [] := rfl

@[simp] theorem piecesTokens_cons_none (w : List Nat) (rest : List (Option T × List Nat)) :
    piecesTokens ((none, w) :: rest) = piecesTokens rest := rfl

@[simp] theorem piecesTokens_cons_some (k : T) (w : List Nat)
    (rest : List (Option T × List Nat)) :
    piecesTokens ((some k, w) :: rest) = ⟨k, w⟩ :: piecesTokens rest := rfl

theorem dfaRun_append (d : DfaData T) (xs ys : List Nat) :
    ∀ s : Nat, dfaRun d s (xs ++ ys) =
      match dfaRun d s xs with
      | some m => dfaRun d m ys
      | none => none := by
  induction xs with
  | nil => intro s; rfl
  | cons c xs ih =>
    intro s
    show dfaRun d s (c :: (xs ++ ys)) = _
    rw [dfaRun]
    cases hstep : d.step s c with
    | some t => simp only [dfaRun, hstep, ih t]
    | none => simp only [dfaRun, hstep]

theorem acceptsB_dead (d : DfaData T) {text : List Nat} {src c : Nat} (w : List Nat)
    (hrun : dfaRun d d.initialIndex text = some src) (hstep : d.step src c = none) :
    acceptsB d (text ++ c :: w) = false := by
  unfold acceptsB
  rw [dfaRun_append, hrun]
  simp only [dfaRun, hstep]

theorem prefix_split {text v : List Nat} {c : Nat} {cs' : List Nat}
    (hv : v <+: text ++ c :: cs') (hlen : text.length < v.length) :
    ∃ w, v = text ++ c :: w := by
  have htv : text <+: v :=
    List.prefix_of_prefix_length_le (List.prefix_append text (c :: cs')) hv (le_of_lt hlen)
  obtain ⟨u, rfl⟩ := htv
  have hu : u <+: c :: cs' := (List.prefix_append_right_inj text).mp hv
  cases u with
  | nil => simp at hlen
  | cons a u' =>
    obtain ⟨rfl, -⟩ := List.cons_prefix_cons.mp hu
    exact ⟨u', rfl⟩

theorem longest_at_stuck (d : DfaData T) {text : List Nat} {src c : Nat} (cs' : List Nat)
    (hrun : dfaRun d d.initialIndex text = some src) (hf : d.isFinalB src = true)
    (hstep : d.step src c = none) :
    LongestAcceptedPrefix d text (text ++ c :: cs') := by
  refine ⟨List.prefix_append text (c :: cs'), ?_, ?_⟩
  · unfold acceptsB
    rw [hrun]
    exact hf
  · intro v hv hlen
    obtain ⟨w, rfl⟩ := prefix_split hv hlen
    exact acceptsB_dead d w hrun hstep

theorem longest_at_eoi (d : DfaData T) {text : List Nat} {src : Nat}
    (hrun : dfaRun d d.initialIndex text = some src) (hf : d.isFinalB src = true) :
    LongestAcceptedPrefix d text (text ++ piecesText ([] : List (Option T × List Nat))) := by
  refine ⟨by simp, ?_, ?_⟩
  · unfold acceptsB
    rw [hrun]
    exact hf
  · intro v hv hlen
    rw [piecesText_nil, List.append_nil] at hv
    exact absurd (List.IsPrefix.length_le hv) (by omega)

theorem lexGo_ok_pieces (d : DfaData T) :
    ∀ (fuel : Nat) (cs : List Nat) (src : Nat) (text : List Nat) (toks res : List (Token T)),
      lexGo d cs src text toks fuel = .ok res →
      dfaRun d d.initialIndex text = some src →
      ∃ pieces : List (Option T × List Nat),
        text ++ cs = piecesText pieces ∧ res = toks ++ piecesTokens pieces ∧
          PiecesLongest d pieces := by
  intro fuel
  induction fuel with
  | zero =>
    intro cs src text toks res h _
    simp [lexGo] at h
  | succ fuel ih =>
    intro cs src text toks res h hrun
    cases cs with
    | nil =>
      cases hf : d.isFinalB src with
      | false => simp [lexGo, hf] at h
      | true =>
        cases hres : resolveKind (d.memberKinds src) none with
        | error u => simp [lexGo, hf, hres] at h
        | ok kOpt =>
          cases kOpt with
          | none =>
            simp only [lexGo, hf, if_true, hres, LexOutcome.ok.injEq] at h
            refine ⟨[(none, text)], by simp, by simp [← h], ?_, trivial⟩
            exact longest_at_eoi d hrun hf
          | some k =>
            simp only [lexGo, hf, if_true, hres, LexOutcome.ok.injEq] at h
            refine ⟨[(some k, text)], by simp, by simp [← h], ?_, trivial⟩
            exact longest_at_eoi d hrun hf
    | cons c cs' =>
      cases hstep : d.step src c with
      | some tgt =>
        simp only [lexGo, hstep] at h
        have hrun' : dfaRun d d.initialIndex (text ++ [c]) = some tgt := by
          rw [dfaRun_append, hrun]
          simp only [dfaRun, hstep]
        obtain ⟨pieces, h1, h2, h3⟩ := ih cs' tgt (text ++ [c]) toks res h hrun'
        refine ⟨pieces, ?_, h2, h3⟩
        rw [← h1]
        simp
      | none =>
        cases hf : d.isFinalB src with
        | false => simp [lexGo, hstep, hf] at h
        | true =>
          cases hres : resolveKind (d.memberKinds src) none with
          | error u => simp [lexGo, hstep, hf, hres] at h
          | ok kOpt =>
            cases kOpt with
            | none =>
              simp only [lexGo, hstep, hf, if_true, hres] at h
              obtain ⟨pieces, h1, h2, h3⟩ := ih (c :: cs') d.initialIndex [] toks res h rfl
              rw [List.nil_append] at h1
              refine ⟨(none, text) :: pieces, by simp [← h1], by simp [h2], ?_, h3⟩
              rw [← h1]
              exact longest_at_stuck d cs' hrun hf hstep
            | some k =>
              simp only [lexGo, hstep, hf, if_true, hres] at h
              obtain ⟨pieces, h1, h2, h3⟩ :=
                ih (c :: cs') d.initialIndex [] (toks ++ [⟨k, text⟩]) res h rfl
              rw [List.nil_append] at h1
              refine ⟨(some k, text) :: pieces, by simp [← h1], by simp [h2], ?_, h3⟩
              rw [← h1]
              exact longest_at_stuck d cs' hrun hf hstep

/-- Claim C1: whenever `lex` succeeds, the scan decomposes the input into
consecutive lexemes (emitted or skipped), and each lexeme is the longest
prefix of the input remaining at the point where its scan began that reaches
an accepting DFA state; in particular, for the catalogue
`{ /A/ => A(0), /AB/ => AB(1), /BB/ => BB(2), /B/ => B(3) }` in that order,
`lex("ABB")` returns exactly `[AB("AB"), B("B")]`. -/
theorem claim_C1 :
    (∀ (T : Type) (_ : DecidableEq T) (d : DfaData T) (input : List Nat)
        (fuel : Nat) (res : List (Token T)),
      lexEval d input fuel = .ok res →
      ∃ pieces : List (Option T × List Nat),
        input = piecesText pieces ∧ res = piecesTokens pieces ∧ PiecesLongest d pieces) ∧
    Lexer.lex lexerC1 [65, 66, 66] 10 = .ok [⟨1, [65, 66]⟩, ⟨3, [66]⟩] := by
  constructor
  · intro T _ d input fuel res h
    obtain ⟨pieces, h1, h2, h3⟩ := lexGo_ok_pieces d fuel input d.initialIndex [] [] res h rfl
    rw [List.nil_append] at h1 h2
    exact ⟨pieces, h1, h2, h3⟩
  · decide

/-- Witness for claim C1 at the catalogue of `tests::test_3` and input
`"ABB"`. -/
theorem claim_C1_witness :
    ∃ pieces : List (Option Nat × List Nat),
      [65, 66, 66] = piecesText pieces ∧
      [(⟨1, [65, 66]⟩ : Token Nat), ⟨3, [66]⟩] = piecesTokens pieces ∧
      PiecesLongest (dfaBuild (buildUnion prodsC1)) pieces :=
  claim_C1.1 Nat inferInstance (dfaBuild (buildUnion prodsC1)) [65, 66, 66] 10
    [⟨1, [65, 66]⟩, ⟨3, [66]⟩] (by decide)

/-- Counterexample to claim C2 as stated: with the catalogue written
`{ /ab/ => X(0), /ab/ => Y(1) }`, `lex("ab")` returns `[Y("ab")]`, not
`[X("ab")]` — the `BTreeMap` production catalogue collapses the duplicated
regex to its last binding, so no priority tie-break towards the
earlier-declared production happens. -/
theorem claim_C2_counterexample :
    Lexer.lex lexerC2 [97, 98] 5 = .ok [⟨1, [97, 98]⟩] ∧
    Lexer.lex lexerC2 [97, 98] 5 ≠ .ok [⟨0, [97, 98]⟩] := by
  constructor
  · decide
  · decide

/-- Claim C2 (amended): the catalogue is a map keyed by the regex, so
`{ /ab/ => X(0), /ab/ => Y(1) }` collapses to the last binding and
`lex("ab")` returns `[Y("ab")]`; and when an accepting DFA state's members
carry two distinct non-absent tags (two genuinely different productions
accepting the same lexeme, `{ /a/ => X(0), /a|b/ => Y(1) }` on `"a"`), `lex`
does not resolve by declaration priority but aborts with the
inconsistent-tokens panic. -/
theorem claim_C2 :
    prodsC2 = [(reLowAB, some 1)] ∧
    Lexer.lex lexerC2 [97, 98] 5 = .ok [⟨1, [97, 98]⟩] ∧
    Lexer.lex lexerC2b [97] 5 = .inconsistent := by
  refine ⟨rfl, by decide, by decide⟩

/-- Counterexample to claim C3 as stated: for
`{ /A/ => A(0), /AAB/ => AAB(1) }` on `"AAA"` the scanner overruns the
accepting state reached after `"A"`, gets stuck on the third `A` in a
non-accepting state, and fails with partial-match — even though the prefix
`"A"` of the current lexeme had reached an accepting state, which the
claimed checkpoint rewind would have emitted before continuing. -/
theorem claim_C3_counterexample :
    Lexer.lex lexerC3 [65, 65, 65] 10 = .partialMatch ∧
    acceptsB (dfaBuild (buildUnion prodsC3)) [65] = true := by
  constructor
  · decide
  · decide

/-- Claim C3 (amended): the scanner keeps no last-accepting checkpoint.  At
a stuck point it emits from the current DFA state exactly when that state is
accepting, pushing the offending character back and resetting to the initial
state; when the current state is not accepting it fails with partial-match
immediately, regardless of whether an earlier prefix of the current lexeme
reached an accepting state.  (The emit path still scans `"AAB"` itself
fine.) -/
theorem claim_C3 :
    (∀ (T : Type) (_ : DecidableEq T) (d : DfaData T) (c : Nat) (cs : List Nat)
        (src : Nat) (text : List Nat) (toks : List (Token T)) (fuel : Nat) (k : T),
      d.step src c = none → d.isFinalB src = true →
      resolveKind (d.memberKinds src) none = .ok (some k) →
      lexGo d (c :: cs) src text toks (fuel + 1) =
        lexGo d (c :: cs) d.initialIndex [] (toks ++ [⟨k, text⟩]) fuel) ∧
    (∀ (T : Type) (_ : DecidableEq T) (d : DfaData T) (c : Nat) (cs : List Nat)
        (src : Nat) (text : List Nat) (toks : List (Token T)) (fuel : Nat),
      d.step src c = none → d.isFinalB src = false →
      lexGo d (c :: cs) src text toks (fuel + 1) = .partialMatch) ∧
    Lexer.lex lexerC3 [65, 65, 66] 10 = .ok [⟨1, [65, 65, 66]⟩] := by
  refine ⟨?_, ?_, by decide⟩
  · intro T _ d c cs src text toks fuel k hstep hf hres
    simp only [lexGo, hstep, hf, if_true, hres]
  · intro T _ d c cs src text toks fuel hstep hf
    simp [lexGo, hstep, hf]

/-- Witness for the amended claim C3: on the compiled `{ /A/ => A(0) }`
lexer, stuck at the accepting state 1 with lexeme `"A"`, one loop iteration
emits `A("A")`, pushes the character back and restarts from the initial
index. -/
theorem claim_C3_witness :
    lexGo (dfaBuild (buildUnion prodsC4)) [65] 1 [65] ([] : List (Token Nat)) 1 =
      lexGo (dfaBuild (buildUnion prodsC4)) [65]
        (dfaBuild (buildUnion prodsC4)).initialIndex [] [⟨0, [65]⟩] 0 :=
  claim_C3.1 Nat inferInstance (dfaBuild (buildUnion prodsC4)) 65 [] 1 [65] [] 0 0
    (by decide) (by decide) (by decide)

/-- Counterexample to claim C4 as stated: `lex("")` on the compiled
`{ /A/ => A(0) }` lexer fails with partial-match even though the pending
lexeme is empty — the end-of-input branch has no empty-lexeme success
case. -/
theorem claim_C4_counterexample : Lexer.lex lexerC4 [] 1 = .partialMatch := by decide

/-- Claim C4 (amended): at end of input with the current DFA state not
accepting, `lex` always fails with partial-match, pending lexeme empty or
not.  Hence an accepting initial DFA state is necessary for `lex("")` to
return `Ok` — but not sufficient, and the `Ok` need not be empty: a nullable
skip production gives `Ok([])`, a nullable tagged production
`{ /A*/ => X }` gives `Ok([X("")])` (a zero-length token), and two nullable
tagged productions `{ /A*/ => X, /B*/ => Y }` abort with the
inconsistent-tokens panic. -/
theorem claim_C4 :
    (∀ (T : Type) (_ : DecidableEq T) (d : DfaData T) (src : Nat) (text : List Nat)
        (toks : List (Token T)) (fuel : Nat),
      d.isFinalB src = false →
      lexGo d [] src text toks (fuel + 1) = .partialMatch) ∧
    (∀ (T : Type) (_ : DecidableEq T) (d : DfaData T) (fuel : Nat) (res : List (Token T)),
      lexEval d [] fuel = .ok res → d.isFinalB d.initialIndex = true) ∧
    Lexer.lex lexerC4 [] 1 = .partialMatch ∧
    Lexer.lex lexerC10 [] 1 = .ok [] ∧
    Lexer.lex lexerC4n [] 1 = .ok [⟨0, []⟩] ∧
    Lexer.lex lexerC4n2 [] 1 = .inconsistent := by
  refine ⟨?_, ?_, by decide, by decide, by decide, by decide⟩
  · intro T _ d src text toks fuel hf
    simp [lexGo, hf]
  · intro T _ d fuel res h
    cases fuel with
    | zero => simp [lexEval, lexGo] at h
    | succ fuel =>
      cases hf : d.isFinalB d.initialIndex with
      | true => rfl
      | false => simp [lexEval, lexGo, hf] at h

/-- Witness for the amended claim C4: the compiled `{ /A/ => A(0) }` lexer's
initial state is not accepting, so the empty input fails with
partial-match. -/
theorem claim_C4_witness :
    lexGo (dfaBuild (buildUnion prodsC4)) [] 0 [] ([] : List (Token Nat)) 1 =
      .partialMatch :=
  claim_C4.1 Nat inferInstance (dfaBuild (buildUnion prodsC4)) 0 [] [] 0 (by decide)

/-- Claim C5: a maximal lexeme whose winning tag is absent is consumed
without emitting any token — the loop drops the lexeme, pushes the stuck
character back and restarts at the initial state — and in particular for
`{ /A/ => A(0), /B/ => B(1), / / => skip }` the input `"A B  A   "` lexes to
exactly `[A("A"), B("B"), A("A")]` with nothing emitted for the spaces. -/
theorem claim_C5 :
    (∀ (T : Type) (_ : DecidableEq T) (d : DfaData T) (c : Nat) (cs : List Nat)
        (src : Nat) (text : List Nat) (toks : List (Token T)) (fuel : Nat),
      d.step src c = none → d.isFinalB src = true →
      resolveKind (d.memberKinds src) none = .ok none →
      lexGo d (c :: cs) src text toks (fuel + 1) =
        lexGo d (c :: cs) d.initialIndex [] toks fuel) ∧
    Lexer.lex lexerC5 [65, 32, 66, 32, 32, 65, 32, 32, 32] 40 =
      .ok [⟨0, [65]⟩, ⟨1, [66]⟩, ⟨0, [65]⟩] := by
  refine ⟨?_, by decide⟩
  intro T _ d c cs src text toks fuel hstep hf hres
  simp only [lexGo, hstep, hf, if_true, hres]

/-- Witness for claim C5: on the compiled skip lexer, stuck at the
accepting all-absent-tag state 1 with lexeme `" "`, one loop iteration
emits nothing and restarts from the initial index with the tokens
untouched. -/
theorem claim_C5_witness :
    lexGo (dfaBuild (buildUnion prodsC5)) [66] 1 [32] ([] : List (Token Nat)) 1 =
      lexGo (dfaBuild (buildUnion prodsC5)) [66]
        (dfaBuild (buildUnion prodsC5)).initialIndex [] [] 0 :=
  claim_C5.1 Nat inferInstance (dfaBuild (buildUnion prodsC5)) 66 [] 1 [32] [] 0
    (by decide) (by decide) (by decide)

/-- Claim C7: a lexer on which `compile` has not been invoked fails every
`lex` call with `NotCompiled`, whatever the productions, input and number of
loop iterations; and `compile` is total — it never raises `NotCompiled` nor
any recoverable error, always storing a DFA. -/
theorem claim_C7 :
    (∀ (prods : List (Re × Option Nat)) (text : List Nat) (fuel : Nat),
      Lexer.lex (Lexer.new prods) text fuel = .notCompiled) ∧
    (∀ prods : List (Re × Option Nat),
      (Lexer.compile (Lexer.new prods)).dfa = some (dfaBuild (buildUnion prods))) := by
  constructor
  · intro prods text fuel
    rfl
  · intro prods
    rfl

/-- Claim C8: `compile` is idempotent — a second `compile` leaves the lexer
(and so the compiled DFA) unchanged, hence a twice-compiled lexer scans
every input exactly as a once-compiled one. -/
theorem claim_C8 :
    (∀ l : Lexer, Lexer.compile (Lexer.compile l) = Lexer.compile l) ∧
    (∀ (l : Lexer) (text : List Nat) (fuel : Nat),
      Lexer.lex (Lexer.compile (Lexer.compile l)) text fuel =
        Lexer.lex (Lexer.compile l) text fuel) := by
  have h1 : ∀ l : Lexer, Lexer.compile (Lexer.compile l) = Lexer.compile l := by
    intro l
    unfold Lexer.compile
    cases hd : l.dfa with
    | none => simp [hd]
    | some d => simp [hd]
  exact ⟨h1, fun l text fuel => by rw [h1 l]⟩

/-- Claim C9: whenever `lex` succeeds, concatenating the emitted tokens'
`text` fields interleaved, in scan order, with the lexemes consumed by skip
productions reproduces exactly the consumed input — the whole input on
success. -/
theorem claim_C9 :
    ∀ (T : Type) (_ : DecidableEq T) (d : DfaData T) (input : List Nat)
      (fuel : Nat) (res : List (Token T)),
      lexEval d input fuel = .ok res →
      ∃ pieces : List (Option T × List Nat),
        input = piecesText pieces ∧ res = piecesTokens pieces := by
  intro T _ d input fuel res h
  obtain ⟨pieces, h1, h2, _⟩ := lexGo_ok_pieces d fuel input d.initialIndex [] [] res h rfl
  rw [List.nil_append] at h1 h2
  exact ⟨pieces, h1, h2⟩

/-- Witness for claim C9 at the skip-lexer catalogue and input
`"A B  A   "`. -/
theorem claim_C9_witness :
    ∃ pieces : List (Option Nat × List Nat),
      [65, 32, 66, 32, 32, 65, 32, 32, 32] = piecesText pieces ∧
      [(⟨0, [65]⟩ : Token Nat), ⟨1, [66]⟩, ⟨0, [65]⟩] = piecesTokens pieces :=
  claim_C9 Nat inferInstance (dfaBuild (buildUnion prodsC5))
    [65, 32, 66, 32, 32, 65, 32, 32, 32] 40 [⟨0, [65]⟩, ⟨1, [66]⟩, ⟨0, [65]⟩] (by decide)

/-- Claim C10 (the code loops): on the `tests::test_1` catalogue
`{ /A/ => A(0), /B/ => B(1), / */ => skip }` the initial DFA state is
accepting (the skip production is nullable) and has no transition on `'C'`,
so `lex("C")` re-enters the emit-and-restart branch forever at input
position 0 — the modelled loop exhausts every fuel bound, i.e. the source
`while let` never exits. -/
theorem claim_C10 :
    ∀ fuel : Nat, Lexer.lex lexerC10 [67] fuel = .outOfFuel := by
  have hstep : (dfaBuild (buildUnion prodsC10)).step 0 67 = none := by decide
  have hf : (dfaBuild (buildUnion prodsC10)).isFinalB 0 = true := by decide
  have hres : resolveKind ((dfaBuild (buildUnion prodsC10)).memberKinds 0) none =
      .ok (none : Option Nat) := by decide
  have core : ∀ fuel : Nat,
      lexGo (dfaBuild (buildUnion prodsC10)) [67] 0 [] [] fuel = .outOfFuel := by
    intro fuel
    induction fuel with
    | zero => simp [lexGo]
    | succ fuel ih =>
      calc lexGo (dfaBuild (buildUnion prodsC10)) [67] 0 [] [] (fuel + 1)
          = lexGo (dfaBuild (buildUnion prodsC10)) [67]
              (dfaBuild (buildUnion prodsC10)).initialIndex [] [] fuel := by
            simp only [lexGo, hstep, hf, if_true, hres]
        _ = .outOfFuel := ih
  intro fuel
  exact core fuel

end Boot

end LexerGen
